import Mathlib

/-!
Verification of the coverage-feedback core of the fuzztest/centipede
repository: the concurrent byte set (single- and two-layer), the feature
domain algebra and encoders, and the table of recent compares (TORC).

The shallow embedding models byte arrays as functions `Nat → Nat` carrying
the invariant that stored values are below 256, machine words as `Nat`
with explicit `% 2 ^ 64` where overflow matters, and trapping operations
as `Option`-valued functions (`none` models `__builtin_trap`).
-/

namespace FuzztestInternal

/-! ### ConcurrentByteSet (src/centipede/concurrent_byteset.h)

The set of `N` bytes is a function `Nat → Nat`; a cleared set maps every
index to 0.  `N` corresponds to the template parameter `kSize`, a multiple
of `kSizeMultiple = 64`.
-/

/-- The cleared byte set: `memset(bytes_, 0, sizeof(bytes_))`. -/
def clearBytes : Nat → Nat := fun _ => 0

/-- `ConcurrentByteSet::Set(idx, value)`: traps when `idx >= kSize`, else
stores `value` (a `uint8_t`, so callers pass `v < 256`) at `idx`. -/
def setByte (N : Nat) (s : Nat → Nat) (i v : Nat) : Option (Nat → Nat) :=
  if i < N then some (fun j => if j = i then v else s j) else none

/-- `ConcurrentByteSet::SaturatedIncrement(idx)`: traps when
`idx >= kSize`; loads the byte and stores `counter + 1` unless the loaded
value is 255. -/
def satInc (N : Nat) (s : Nat → Nat) (i : Nat) : Option (Nat → Nat) :=
  if i < N then
    some (if s i = 255 then s else fun j => if j = i then s i + 1 else s j)
  else none

/-- The word load in the drain loop: `__builtin_memcpy(&word, ptr, 8)` on a
little-endian host packs the `k` bytes starting at `base`, least address
into the lowest byte of the word. -/
def packBytes (s : Nat → Nat) : Nat → Nat → Nat
  | _, 0 => 0
  | base, k + 1 => s base % 256 + 256 * packBytes s (base + 1) k

/-- One word of the drain loop (`word_t` is 8 bytes on a 64-bit host). -/
def chunkWord (s : Nat → Nat) (base : Nat) : Nat := packBytes s base 8

/-- The inner byte loop of `ForEachNonZeroByte`: for each byte position
`pos` of the word, `value = word >> (pos * CHAR_BIT)` truncated to
`uint8_t`; calls `action(ptr - bytes + pos, value)` for non-zero values. -/
def drainChunk (word base : Nat) : List (Nat × Nat) :=
  (List.range 8).filterMap fun pos =>
    if word / 2 ^ (8 * pos) % 256 ≠ 0 then
      some (base + pos, word / 2 ^ (8 * pos) % 256)
    else none

/-- The word-at-a-time loop of `ForEachNonZeroByte`: `n` words starting at
byte offset `base`.  A zero word is skipped; otherwise the word is zeroed
(`__builtin_memset(ptr, 0, kWordSize)`) and its non-zero bytes emitted.
Returns the emitted `(index, value)` pairs in invocation order together
with the final byte array. -/
def forEachLoop : (Nat → Nat) → Nat → Nat → List (Nat × Nat) × (Nat → Nat)
  | s, _, 0 => ([], s)
  | s, base, n + 1 =>
    let w := chunkWord s base
    if w = 0 then forEachLoop s (base + 8) n
    else
      let s2 : Nat → Nat := fun j => if base ≤ j ∧ j < base + 8 then 0 else s j
      let r := forEachLoop s2 (base + 8) n
      (drainChunk w base ++ r.1, r.2)

/-- `ConcurrentByteSet::ForEachNonZeroByte(action, from, to)`: traps when
`from % 64 ≠ 0`, when `tto % 64 ≠ 0`, or when `to > kSize`; then iterates
words from `from` while the cursor is below `to` (zero iterations when
`from ≥ to`). -/
def forEachNonZeroByte (N : Nat) (s : Nat → Nat) (fr tto : Nat) :
    Option (List (Nat × Nat) × (Nat → Nat)) :=
  if fr % 64 ≠ 0 then none
  else if tto % 64 ≠ 0 then none
  else if tto > N then none
  else some (forEachLoop s fr ((tto - fr) / 8))

/-- A single-threaded operation on a byte set: `Set(i, v)` or
`SaturatedIncrement(i)`. -/
inductive ByteOp where
  | write (i v : Nat)
  | inc (i : Nat)

/-- Validity of an operation for a set of `N` bytes: the index is in range
and a written value fits `uint8_t`. -/
def opValid (N : Nat) : ByteOp → Bool
  | .write i v => decide (i < N) && decide (v < 256)
  | .inc i => decide (i < N)

/-- Apply one operation to a single-layer set. -/
def applyOp (N : Nat) (s : Nat → Nat) : ByteOp → Option (Nat → Nat)
  | .write i v => setByte N s i v
  | .inc i => satInc N s i

/-- Apply a sequence of operations to a single-layer set, trapping if any
single operation traps. -/
def applyOps (N : Nat) (s : Nat → Nat) : List ByteOp → Option (Nat → Nat)
  | [] => some s
  | op :: rest => (applyOp N s op).bind fun s2 => applyOps N s2 rest

/-- The value held at index `i` after a sequence of `Set` calls on an
initially cleared set: the last written value, or 0 if never written. -/
def lastWrite (ops : List (Nat × Nat)) (i : Nat) : Nat :=
  ops.foldl (fun acc p => if p.1 = i then p.2 else acc) 0

/-! ### TwoLayerConcurrentByteSet

`TwoLayerConcurrentByteSet<kSize>` is `LayeredConcurrentByteSet` with
`Upper = ConcurrentByteSet<kSize / 64>` and `Lower =
ConcurrentByteSet<kSize>`, so `kLayerRatio = 64` and `kSizeMultiple =
Lower::kSizeMultiple * Upper::kSizeMultiple = 64 * 64`.
-/

/-- `LayeredConcurrentByteSet::kSizeMultiple` for the two-layer set. -/
def tlSizeMultiple : Nat := 64 * 64

/-- `LayeredConcurrentByteSet::Set`: traps when `idx >= kSize`, writes 1 to
the upper layer at `idx / 64` and `value` to the lower layer at `idx`. -/
def tlSet (N : Nat) (u l : Nat → Nat) (i v : Nat) :
    Option ((Nat → Nat) × (Nat → Nat)) :=
  if i < N then
    (setByte (N / 64) u (i / 64) 1).bind fun u2 =>
      (setByte N l i v).bind fun l2 => some (u2, l2)
  else none

/-- `LayeredConcurrentByteSet::SaturatedIncrement`: traps when
`idx >= kSize`, writes 1 to the upper layer at `idx / 64` and performs a
saturated increment on the lower layer at `idx`. -/
def tlSatInc (N : Nat) (u l : Nat → Nat) (i : Nat) :
    Option ((Nat → Nat) × (Nat → Nat)) :=
  if i < N then
    (setByte (N / 64) u (i / 64) 1).bind fun u2 =>
      (satInc N l i).bind fun l2 => some (u2, l2)
  else none

/-- Apply one operation to a two-layer set. -/
def tlApplyOp (N : Nat) (u l : Nat → Nat) : ByteOp → Option ((Nat → Nat) × (Nat → Nat))
  | .write i v => tlSet N u l i v
  | .inc i => tlSatInc N u l i

/-- Apply a sequence of operations to a two-layer set. -/
def tlApplyOps (N : Nat) (u l : Nat → Nat) :
    List ByteOp → Option ((Nat → Nat) × (Nat → Nat))
  | [] => some (u, l)
  | op :: rest => (tlApplyOp N u l op).bind fun p => tlApplyOps N p.1 p.2 rest

/-- The action the layered drain passes to the upper drain: for each
non-zero upper byte at `idx`, drain the lower layer over
`[idx * 64, idx * 64 + 64)`.  The fold threads the lower layer through the
successive invocations and concatenates the emitted pairs. -/
def tlDrainLower (N : Nat) : (Nat → Nat) → List (Nat × Nat) →
    Option (List (Nat × Nat) × (Nat → Nat))
  | l, [] => some ([], l)
  | l, p :: rest =>
    (forEachNonZeroByte N l (p.1 * 64) (p.1 * 64 + 64)).bind fun r1 =>
      (tlDrainLower N r1.2 rest).bind fun r2 => some (r1.1 ++ r2.1, r2.2)

/-- `LayeredConcurrentByteSet::ForEachNonZeroByte` for the two-layer set:
traps when `to > kSize`, when `from % kSizeMultiple ≠ 0` or when
`tto % kSizeMultiple ≠ 0` (with `kSizeMultiple = 64 * 64`); drains the
upper layer over `[from / 64, tto / 64)` and, for each non-zero upper
byte, the lower layer over the corresponding 64-byte range. -/
def tlForEachNonZeroByte (N : Nat) (u l : Nat → Nat) (fr tto : Nat) :
    Option (List (Nat × Nat) × ((Nat → Nat) × (Nat → Nat))) :=
  if tto > N then none
  else if fr % tlSizeMultiple ≠ 0 then none
  else if tto % tlSizeMultiple ≠ 0 then none
  else
    (forEachNonZeroByte (N / 64) u (fr / 64) (tto / 64)).bind fun ru =>
      (tlDrainLower N l ru.1).bind fun rl => some (rl.1, ru.2, rl.2)

/-- The `(index, value)` pairs a drain emits from the 64-byte chunk `j`
of a byte state: the non-zero bytes of `[j * 64, j * 64 + 64)` in index
order.  Used to state the correspondence between the single-layer and the
two-layer drains. -/
def chunkPairs (l : Nat → Nat) (j : Nat) : List (Nat × Nat) :=
  (List.range 64).filterMap fun k =>
    if l (j * 64 + k) ≠ 0 then some (j * 64 + k, l (j * 64 + k)) else none

/-! ### Feature domains and encoders (src/centipede/feature.h) -/

/-- `Domain::kDomainSize = 1ULL << 27`. -/
def kDomainSize : Nat := 2 ^ 27

/-- `size_t` arithmetic is modulo `2 ^ 64`. -/
def wordMod : Nat := 2 ^ 64

/-- `Domain::begin() = kDomainSize * domain_id_` in `size_t` arithmetic. -/
def domainBegin (d : Nat) : Nat := kDomainSize * d % wordMod

/-- `Domain::end() = begin() + kDomainSize` in `size_t` arithmetic. -/
def domainEnd (d : Nat) : Nat := (domainBegin d + kDomainSize) % wordMod

/-- `Domain::Contains(feature)`. -/
def domainContains (d f : Nat) : Bool :=
  decide (domainBegin d ≤ f) && decide (f < domainEnd d)

/-- `Domain::ConvertToMe(number) = begin() + number % kDomainSize`. -/
def convertToMe (d n : Nat) : Nat := (domainBegin d + n % kDomainSize) % wordMod

/-- `Domain::FeatureToDomainId(feature) = feature / kDomainSize`. -/
def featureToDomainId (f : Nat) : Nat := f / kDomainSize

/-- `Domain::FeatureToIndexInDomain(feature) = feature % kDomainSize`. -/
def featureToIndexInDomain (f : Nat) : Nat := f % kDomainSize

/-- `kPCs.domain_id()`: the PC domain is declared second, after
`kUnknown`, so `__COUNTER__` assigns it id 1. -/
def kPCsId : Nat := 1

/-- `ConvertPCFeatureToPcIndex(feature)`: traps when the feature is not in
the PC domain, else returns `feature - kPCs.begin()`. -/
def convertPCFeatureToPcIndex (f : Nat) : Option Nat :=
  if domainContains kPCsId f then some (f - domainBegin kPCsId) else none

/-- `__builtin_clz` on a non-zero `uint32_t` argument: 32 minus the bit
length, with the bit length computed as the number of bit positions
`i < 32` whose weight `2 ^ i` does not exceed the argument. -/
def clz32 (x : Nat) : Nat :=
  32 - (List.range 32).countP fun i => decide (2 ^ i ≤ x)

/-- `Convert8bitCounterToNumber(pc_index, counter_value)`: traps when
`counter_value == 0`; otherwise returns
`pc_index * 8 + (31 - __builtin_clz(counter_value))`, computed in
`size_t` arithmetic, i.e. modulo `2 ^ 64`. -/
def convert8bitCounterToNumber (pcIndex v : Nat) : Option Nat :=
  if v = 0 then none
  else some ((pcIndex * 8 + (32 - 1 - clz32 v)) % wordMod)

/-- `__builtin_popcountll` of a 64-bit value. -/
def popcount64 (x : Nat) : Nat :=
  ((List.range 64).map fun i => x / 2 ^ i % 2).sum

/-- `ABToCmpHamming(a, b) = __builtin_popcountll(a ^ b) - 1`: the
subtraction happens in `int` and the result converts to `uintptr_t`, so a
popcount of zero yields `2 ^ 64 - 1`. -/
def abToCmpHamming (a b : Nat) : Nat :=
  (popcount64 (a ^^^ b) + (wordMod - 1)) % wordMod

/-! ### TableOfRecentCompares (src/fuzztest/internal/table_of_recent_compares.h)

The table is a list of `(lhs, rhs)` entries of `w`-bit unsigned values.
-/

/-- `GetMatchingIntegerDictionaryEntry(val, idx)` at a single entry: the
other side of the pair when one side equals `val`. -/
def getMatchingEntry (val lhs rhs : Nat) : Option Nat :=
  if lhs = val then some rhs
  else if rhs = val then some lhs
  else none

/-- `GetMatchingIntegerDictionaryEntry(val, idx, min, max)`: the matched
other side, dropped when outside `[min, max]`. -/
def getMatchingEntryInRange (val lhs rhs mn mx : Nat) : Option Nat :=
  match getMatchingEntry val lhs rhs with
  | some b => if b < mn ∨ mx < b then none else some b
  | none => none

/-- The slot loop of `GetMatchingIntegerDictionaryEntries`: insert every
per-slot match into a `flat_hash_set`.  The returned vector copies the
hash set in unspecified order, so the observable result is the finite
set. -/
def insertMatches (tbl : List (Nat × Nat)) (f : Nat × Nat → Option Nat) :
    Finset Nat :=
  tbl.foldl
    (fun acc e =>
      match f e with
      | some b => insert b acc
      | none => acc)
    ∅

/-- `GetMatchingIntegerDictionaryEntries(val, min, max)` for entries of
`w`-bit unsigned values: when `min` and `max` are the numeric limits the
per-slot range check is skipped, else each match is filtered by
`[min, max]`. -/
def getMatchingEntries (w : Nat) (tbl : List (Nat × Nat)) (val mn mx : Nat) :
    Finset Nat :=
  if mn = 0 ∧ mx = 2 ^ w - 1 then
    insertMatches tbl fun e => getMatchingEntry val e.1 e.2
  else
    insertMatches tbl fun e => getMatchingEntryInRange val e.1 e.2 mn mx

/-- `TableOfRecentCompares::GetRandomSide(prng, idx, min, max)` at the
entry `(lhs, rhs)` stored in slot `idx`, with the coin flip
`RandomBool(prng)` made explicit.  Both branches of the source read
`entry.lhs`. -/
def getRandomSide (coin : Bool) (lhs rhs mn mx : Nat) : Option Nat :=
  if coin then
    if mn ≤ lhs ∧ lhs ≤ mx then some lhs else none
  else
    if mn ≤ lhs ∧ lhs ≤ mx then some lhs else none

/-! ## Helper lemmas -/

/-- Counting the prefix of `List.range n` below the bound `L`. -/
theorem countP_le_range (L n : Nat) :
    (List.range n).countP (fun i => decide (i ≤ L)) = min (L + 1) n := by
  induction n with
  | zero => simp
  | succ n ih =>
    rw [List.range_succ, List.countP_append, ih]
    by_cases h : n ≤ L <;> simp [h] <;> omega

/-- The executable `clz32` agrees with the logarithm: for a non-zero
32-bit value the bit length is `log₂ + 1`. -/
theorem clz32_eq (v : Nat) (h1 : 1 ≤ v) (h2 : v < 2 ^ 32) :
    clz32 v = 32 - (Nat.log 2 v + 1) := by
  unfold clz32
  have hcong : ∀ i ∈ List.range 32,
      (decide (2 ^ i ≤ v) = true ↔ decide (i ≤ Nat.log 2 v) = true) := by
    intro i _
    simp only [decide_eq_true_eq]
    exact Nat.pow_le_iff_le_log one_lt_two (by omega)
  rw [List.countP_congr hcong, countP_le_range]
  have hlog : Nat.log 2 v < 32 := Nat.log_lt_of_lt_pow (by omega) h2
  omega

/-- `31 - clz32 v` is the floor of the binary logarithm. -/
theorem thirtyone_sub_clz (v : Nat) (h1 : 1 ≤ v) (h2 : v < 2 ^ 32) :
    32 - 1 - clz32 v = Nat.log 2 v := by
  rw [clz32_eq v h1 h2]
  have hlog : Nat.log 2 v < 32 := Nat.log_lt_of_lt_pow (by omega) h2
  omega

/-- The image of `log₂` over the 8-bit counter values `1..255`. -/
theorem log2_image :
    Finset.image (fun v => Nat.log 2 v) (Finset.Icc 1 255) = Finset.range 8 := by
  ext b
  simp only [Finset.mem_image, Finset.mem_Icc, Finset.mem_range]
  constructor
  · rintro ⟨v, ⟨hv1, hv2⟩, rfl⟩
    exact Nat.log_lt_of_lt_pow (by omega) (by omega)
  · intro hb
    refine ⟨2 ^ b, ⟨Nat.one_le_two_pow, ?_⟩, Nat.log_pow one_lt_two b⟩
    calc 2 ^ b ≤ 2 ^ 7 := Nat.pow_le_pow_right (by omega) (by omega)
    _ ≤ 255 := by norm_num

/-! ## Claims C7, C6, C10, C3, C4, C9 -/

/-- Claim C7 counterexample: at `pc_index = 2 ^ 63` and `v = 2` the
program computes `pc_index * 8 + counter_log2` in `size_t` arithmetic,
which wraps, so the result is not `p * 8 + ⌊log₂ v⌋ = 2 ^ 66 + 1` as the
claim states for every `p`. -/
theorem convert8bitCounter_wrap_counterexample :
    Nat.log 2 2 = 1 ∧ 1 ≤ 2 ∧ 2 ≤ 255 ∧
    convert8bitCounterToNumber (2 ^ 63) 2 = some 1 ∧
    convert8bitCounterToNumber (2 ^ 63) 2 ≠ some (2 ^ 63 * 8 + Nat.log 2 2) := by
  have hlog : Nat.log 2 2 = 1 :=
    Nat.log_eq_of_pow_le_of_lt_pow (by norm_num) (by norm_num)
  refine ⟨hlog, by norm_num, by norm_num, by decide, ?_⟩
  rw [hlog]
  decide

/-- Claim C7 (amended): for every pc index `p` and counter value `v` with
`1 ≤ v ≤ 255`, `Convert8bitCounterToNumber(p, v)` returns
`(p * 8 + ⌊log₂ v⌋) mod 2 ^ 64` — equal to `p * 8 + ⌊log₂ v⌋` whenever
`p < 2 ^ 61`, where the `size_t` computation cannot wrap; the outputs
over `v ∈ [1, 255]` take exactly 8 distinct values for each `p`; and the
function traps exactly when `v = 0`. -/
theorem convert8bitCounter_spec (p : Nat) :
    (∀ v, 1 ≤ v → v ≤ 255 →
      convert8bitCounterToNumber p v = some ((p * 8 + Nat.log 2 v) % 2 ^ 64)) ∧
    (∀ v, 1 ≤ v → v ≤ 255 → p < 2 ^ 61 →
      convert8bitCounterToNumber p v = some (p * 8 + Nat.log 2 v)) ∧
    (Finset.image (fun v => (p * 8 + Nat.log 2 v) % 2 ^ 64)
      (Finset.Icc 1 255)).card = 8 ∧
    (∀ v, convert8bitCounterToNumber p v = none ↔ v = 0) := by
  have hlog7 : ∀ v, 1 ≤ v → v ≤ 255 → Nat.log 2 v ≤ 7 := by
    intro v h1 h2
    have : Nat.log 2 v < 8 := Nat.log_lt_of_lt_pow (by omega) (by omega)
    omega
  have hexact : ∀ v, 1 ≤ v → v ≤ 255 →
      convert8bitCounterToNumber p v = some ((p * 8 + Nat.log 2 v) % 2 ^ 64) := by
    intro v h1 h2
    unfold convert8bitCounterToNumber wordMod
    rw [if_neg (by omega), thirtyone_sub_clz v h1 (by omega)]
  refine ⟨hexact, ?_, ?_, ?_⟩
  · intro v h1 h2 hp
    rw [hexact v h1 h2,
      Nat.mod_eq_of_lt (by have := hlog7 v h1 h2; omega)]
  · have hshift : ∀ b : Nat, b ≤ 7 →
        (p * 8 + b) % 2 ^ 64 = p * 8 % 2 ^ 64 + b := by
      intro b hb
      omega
    have himg : Finset.image (fun v => (p * 8 + Nat.log 2 v) % 2 ^ 64)
        (Finset.Icc 1 255) =
        Finset.image (fun v => p * 8 % 2 ^ 64 + Nat.log 2 v)
          (Finset.Icc 1 255) := by
      apply Finset.image_congr
      intro v hv
      have hv2 : 1 ≤ v ∧ v ≤ 255 := Finset.mem_Icc.mp hv
      exact hshift _ (hlog7 v hv2.1 hv2.2)
    have h : Finset.image (fun v => p * 8 % 2 ^ 64 + Nat.log 2 v)
        (Finset.Icc 1 255)
        = Finset.image (fun b => p * 8 % 2 ^ 64 + b)
            (Finset.image (fun v => Nat.log 2 v) (Finset.Icc 1 255)) := by
      rw [Finset.image_image]
      rfl
    rw [himg, h, log2_image,
      Finset.card_image_of_injective _ (fun x y hxy => by omega)]
    simp
  · intro v
    unfold convert8bitCounterToNumber
    by_cases h : v = 0 <;> simp [h]

/-- Witness for claim C7 at `p = 7`, `v = 255` (spec scenario 4), in the
non-wrapping regime. -/
theorem convert8bitCounter_spec_witness :
    convert8bitCounterToNumber 7 255 = some (7 * 8 + Nat.log 2 255) ∧
    1 ≤ 255 ∧ 255 ≤ 255 ∧ 7 < 2 ^ 61 :=
  ⟨(convert8bitCounter_spec 7).2.1 255 (by norm_num) (by norm_num)
      (by norm_num),
    by norm_num, by norm_num, by norm_num⟩

/-- Claim C6: for every declared domain id `d ≤ 28` and every number `n`,
`FeatureToDomainId(d.ConvertToMe(n)) = d` and
`FeatureToIndexInDomain(d.ConvertToMe(n)) = n % 2 ^ 27`; and for every
`idx < 2 ^ 27`, `ConvertPCFeatureToPcIndex(kPCs.ConvertToMe(idx)) = idx`. -/
theorem featureDomain_roundtrip (d n idx : Nat) (hd : d ≤ 28)
    (hidx : idx < kDomainSize) :
    featureToDomainId (convertToMe d n) = d ∧
    featureToIndexInDomain (convertToMe d n) = n % kDomainSize ∧
    convertPCFeatureToPcIndex (convertToMe kPCsId idx) = some idx := by
  have hsize : kDomainSize = 2 ^ 27 := rfl
  have hmod : n % kDomainSize < kDomainSize :=
    Nat.mod_lt n (by rw [hsize]; norm_num)
  have hbegin : domainBegin d = kDomainSize * d := by
    unfold domainBegin wordMod
    apply Nat.mod_eq_of_lt
    calc kDomainSize * d ≤ kDomainSize * 28 :=
          Nat.mul_le_mul_left kDomainSize hd
    _ < 2 ^ 64 := by rw [hsize]; norm_num
  have hconv : convertToMe d n = kDomainSize * d + n % kDomainSize := by
    unfold convertToMe wordMod
    rw [hbegin]
    apply Nat.mod_eq_of_lt
    calc kDomainSize * d + n % kDomainSize
        ≤ kDomainSize * 28 + kDomainSize := by
          have := Nat.mul_le_mul_left kDomainSize hd
          omega
    _ < 2 ^ 64 := by rw [hsize]; norm_num
  refine ⟨?_, ?_, ?_⟩
  · unfold featureToDomainId
    rw [hconv, Nat.mul_add_div (by rw [hsize]; norm_num),
      Nat.div_eq_of_lt hmod]
    omega
  · unfold featureToIndexInDomain
    rw [hconv, Nat.mul_add_mod, Nat.mod_eq_of_lt hmod]
  · have hb1 : domainBegin kPCsId = kDomainSize := by decide
    have he1 : domainEnd kPCsId = kDomainSize + kDomainSize := by decide
    have hpc : convertToMe kPCsId idx = kDomainSize + idx := by
      unfold convertToMe wordMod
      rw [hb1, Nat.mod_eq_of_lt hidx]
      apply Nat.mod_eq_of_lt
      rw [hsize] at hidx ⊢
      omega
    unfold convertPCFeatureToPcIndex domainContains
    rw [hpc, hb1, he1]
    have hle : kDomainSize ≤ kDomainSize + idx := by omega
    have hlt : kDomainSize + idx < kDomainSize + kDomainSize := by omega
    rw [if_pos]
    · rw [Nat.add_sub_cancel_left]
    · simp [hle, hlt]

/-- Witness for claim C6 at `d = 7`, `n = 2 ^ 27 + 5`, `idx = 12345`. -/
theorem featureDomain_roundtrip_witness :
    featureToDomainId (convertToMe 7 (2 ^ 27 + 5)) = 7 ∧
    featureToIndexInDomain (convertToMe 7 (2 ^ 27 + 5)) = (2 ^ 27 + 5) % kDomainSize ∧
    convertPCFeatureToPcIndex (convertToMe kPCsId 12345) = some 12345 :=
  featureDomain_roundtrip 7 (2 ^ 27 + 5) 12345 (by norm_num)
    (by unfold kDomainSize; norm_num)

/-- Claim C10: `ABToCmpHamming` is total; at `a = b` (violating the
documented precondition) it returns `2 ^ 64 - 1`, outside the documented
range `[0, 64)`. -/
theorem abToCmpHamming_diag (a : Nat) :
    abToCmpHamming a a = 2 ^ 64 - 1 ∧ 64 ≤ abToCmpHamming a a := by
  have hx : a ^^^ a = 0 := Nat.xor_self a
  have h0 : popcount64 0 = 0 := by decide
  have hm : (0 + (2 ^ 64 - 1)) % 2 ^ 64 = 2 ^ 64 - 1 :=
    Nat.mod_eq_of_lt (by norm_num)
  unfold abToCmpHamming wordMod
  rw [hx, h0, hm]
  norm_num

/-- Claim C3 (code bug): for the slot `(lhs, rhs) = (0, 5)` and bounds
`[1, 10]`, `rhs = 5` lies in the bounds yet `GetRandomSide` returns
`nullopt` on both coin outcomes, because both branches of the source read
`entry.lhs`; no coin outcome can ever return the slot's `rhs`. -/
theorem getRandomSide_lhs_bug :
    (∀ c : Bool, getRandomSide c 0 5 1 10 = none) ∧
    1 ≤ 5 ∧ 5 ≤ 10 ∧ getRandomSide false 0 5 1 10 ≠ some 5 := by decide

/-- Claim C4 counterexample: `from = 128`, `to = 64` on `N = 64`: `from`
is a multiple of 64 but lies outside `[0, N]`, yet the drain does not
trap — the code checks only `to` against `kSize`. -/
theorem forEachNonZero_from_overflow_no_trap :
    128 % 64 = 0 ∧ 64 % 64 = 0 ∧ (64 : Nat) ≤ 64 ∧ ¬(128 ≤ 64) ∧
    (forEachNonZeroByte 64 clearBytes 128 64).isSome = true :=
  ⟨by norm_num, by norm_num, le_refl _, by norm_num, rfl⟩

/-- Claim C4 (amended): `ConcurrentByteSet::ForEachNonZeroByte` traps
exactly when `from % 64 ≠ 0`, `to % 64 ≠ 0`, or `to > N`; an out-of-range
`from` alone does not trap. -/
theorem forEachNonZero_trap_iff (N : Nat) (s : Nat → Nat) (fr tto : Nat) :
    forEachNonZeroByte N s fr tto = none ↔
      fr % 64 ≠ 0 ∨ tto % 64 ≠ 0 ∨ N < tto := by
  unfold forEachNonZeroByte
  by_cases h1 : fr % 64 ≠ 0 <;> by_cases h2 : tto % 64 ≠ 0 <;>
    by_cases h3 : tto > N <;> simp [h1, h2, h3] <;> omega

/-- Claim C9: the two-layer drain traps whenever `from` or `to` is not a
multiple of `kSizeMultiple = 64 * 64 = 4096`, even when both are
multiples of 64 and within `[0, N]`. -/
theorem tlForEachNonZero_strict_alignment (N : Nat) (u l : Nat → Nat)
    (fr tto : Nat) (hfr : 64 ∣ fr) (htto : 64 ∣ tto) (hfrN : fr ≤ N)
    (httoN : tto ≤ N)
    (halign : fr % tlSizeMultiple ≠ 0 ∨ tto % tlSizeMultiple ≠ 0) :
    tlForEachNonZeroByte N u l fr tto = none ∧ tlSizeMultiple = 64 * 64 := by
  refine ⟨?_, rfl⟩
  unfold tlForEachNonZeroByte
  rw [if_neg (by omega)]
  by_cases h1 : fr % tlSizeMultiple ≠ 0
  · rw [if_pos h1]
  · have h2 : tto % tlSizeMultiple ≠ 0 := by tauto
    rw [if_neg h1, if_pos h2]

/-- Witness for claim C9: `N = 4096`, `from = 64`, `to = 4096`: both
multiples of 64 and within range, but `from` is not 4096-aligned. -/
theorem tlForEachNonZero_strict_alignment_witness :
    tlForEachNonZeroByte 4096 clearBytes clearBytes 64 4096 = none ∧
    tlSizeMultiple = 64 * 64 :=
  tlForEachNonZero_strict_alignment 4096 clearBytes clearBytes 64 4096
    (by norm_num) (by norm_num) (by norm_num) (by norm_num)
    (Or.inl (by norm_num [tlSizeMultiple]))

/-! ## Claim C5: repeated saturated increments -/

/-- Effect of `k` repeated `SaturatedIncrement(i)` calls from an arbitrary
state: the byte at `i` reaches `min (s i + k) 255` and other bytes are
untouched. -/
theorem satInc_replicate (N i : Nat) (hi : i < N) :
    ∀ k (s : Nat → Nat), s i ≤ 255 →
      ∃ t, applyOps N s (List.replicate k (ByteOp.inc i)) = some t ∧
        t i = min (s i + k) 255 ∧ ∀ j, j ≠ i → t j = s j := by
  intro k
  induction k with
  | zero =>
    intro s hs
    exact ⟨s, rfl, by omega, fun j _ => rfl⟩
  | succ k ih =>
    intro s hs
    rw [List.replicate_succ]
    show ∃ t, (applyOp N s (ByteOp.inc i)).bind
      (fun s2 => applyOps N s2 (List.replicate k (ByteOp.inc i))) = some t ∧ _
    have happ : applyOp N s (ByteOp.inc i) =
        some (if s i = 255 then s
          else fun j => if j = i then s i + 1 else s j) := by
      show satInc N s i = _
      unfold satInc
      rw [if_pos hi]
    by_cases h255 : s i = 255
    · obtain ⟨t, ht, hti, htj⟩ := ih s hs
      refine ⟨t, ?_, by omega, htj⟩
      rw [happ, if_pos h255, Option.some_bind, ht]
    · obtain ⟨t, ht, hti, htj⟩ :=
        ih (fun j => if j = i then s i + 1 else s j) (by simp; omega)
      refine ⟨t, ?_, ?_, ?_⟩
      · rw [happ, if_neg h255, Option.some_bind, ht]
      · simp only [if_true, eq_self_iff_true] at hti
        omega
      · intro j hj
        rw [htj j hj]
        simp [hj]

/-- Claim C5: for every `i < N`, `k` single-threaded
`SaturatedIncrement(i)` calls on a cleared `ConcurrentByteSet<N>` leave
byte `i` holding exactly `min k 255`. -/
theorem satInc_min_spec (N i k : Nat) (hi : i < N) :
    ∃ t, applyOps N clearBytes (List.replicate k (ByteOp.inc i)) = some t ∧
      t i = min k 255 := by
  obtain ⟨t, ht, hti, -⟩ :=
    satInc_replicate N i hi k clearBytes (by norm_num [clearBytes])
  exact ⟨t, ht, by simpa [clearBytes] using hti⟩

/-- Witness for claim C5: 300 increments at index 10 of a 64-byte set
(spec scenario 2). -/
theorem satInc_min_spec_witness :
    ∃ t, applyOps 64 clearBytes (List.replicate 300 (ByteOp.inc 10)) = some t ∧
      t 10 = min 300 255 :=
  satInc_min_spec 64 10 300 (by norm_num)

/-! ## Claim C8: integer TORC matching -/

/-- Characterization of the per-slot match: the other side of the pair is
returned exactly when the slot holds `(val, b)` or `(b, val)`. -/
theorem getMatchingEntry_eq (val l r b : Nat) :
    getMatchingEntry val l r = some b ↔
      (l = val ∧ r = b) ∨ (l = b ∧ r = val) := by
  unfold getMatchingEntry
  by_cases h1 : l = val <;> by_cases h2 : r = val <;> simp [h1, h2] <;> omega

/-- Characterization of the per-slot match with range filter. -/
theorem getMatchingEntryInRange_eq (val l r mn mx b : Nat) :
    getMatchingEntryInRange val l r mn mx = some b ↔
      (getMatchingEntry val l r = some b ∧ mn ≤ b ∧ b ≤ mx) := by
  unfold getMatchingEntryInRange
  cases hm : getMatchingEntry val l r with
  | none => simp
  | some c =>
    by_cases hc : c < mn ∨ mx < c
    · simp only [hc, if_true]
      constructor
      · intro h
        exact absurd h (by simp)
      · rintro ⟨hb, h1, h2⟩
        injection hb with hb
        omega
    · simp only [hc, if_false]
      constructor
      · intro h
        injection h with h
        subst h
        exact ⟨rfl, by omega, by omega⟩
      · rintro ⟨hb, -, -⟩
        exact hb

/-- Membership in the hash-set fold: an element is collected exactly when
some slot matches it. -/
theorem insertMatches_mem (tbl : List (Nat × Nat)) (f : Nat × Nat → Option Nat)
    (b : Nat) :
    b ∈ insertMatches tbl f ↔ ∃ e ∈ tbl, f e = some b := by
  suffices h : ∀ acc : Finset Nat,
      b ∈ tbl.foldl
        (fun acc e =>
          match f e with
          | some c => insert c acc
          | none => acc) acc ↔ b ∈ acc ∨ ∃ e ∈ tbl, f e = some b by
    simpa [insertMatches] using h ∅
  induction tbl with
  | nil => intro acc; simp
  | cons e rest ih =>
    intro acc
    rw [List.foldl_cons]
    cases hfe : f e with
    | none =>
      simp only [hfe, ih, List.mem_cons]
      constructor
      · rintro (h | ⟨x, hx, hfx⟩)
        · exact Or.inl h
        · exact Or.inr ⟨x, Or.inr hx, hfx⟩
      · rintro (h | ⟨x, hx | hx, hfx⟩)
        · exact Or.inl h
        · subst hx; rw [hfe] at hfx; exact absurd hfx (by simp)
        · exact Or.inr ⟨x, hx, hfx⟩
    | some c =>
      simp only [hfe, ih, Finset.mem_insert, List.mem_cons]
      constructor
      · rintro ((h | h) | ⟨x, hx, hfx⟩)
        · exact Or.inr ⟨e, Or.inl rfl, by rw [hfe, h]⟩
        · exact Or.inl h
        · exact Or.inr ⟨x, Or.inr hx, hfx⟩
      · rintro (h | ⟨x, hx | hx, hfx⟩)
        · exact Or.inl (Or.inr h)
        · subst hx
          rw [hfe] at hfx
          injection hfx with hfx
          exact Or.inl (Or.inl hfx.symm)
        · exact Or.inr ⟨x, hx, hfx⟩

/-- Membership characterization of `GetMatchingIntegerDictionaryEntries`
for a table of `w`-bit entries, either branch. -/
theorem getMatchingEntries_mem (w : Nat) (tbl : List (Nat × Nat))
    (val mn mx : Nat) (hw : ∀ e ∈ tbl, e.1 < 2 ^ w ∧ e.2 < 2 ^ w) (b : Nat) :
    b ∈ getMatchingEntries w tbl val mn mx ↔
      (((val, b) ∈ tbl ∨ (b, val) ∈ tbl) ∧ mn ≤ b ∧ b ≤ mx) := by
  have hpair : ∀ b, (∃ e ∈ tbl, getMatchingEntry val e.1 e.2 = some b) ↔
      ((val, b) ∈ tbl ∨ (b, val) ∈ tbl) := by
    intro c
    constructor
    · rintro ⟨e, he, hfe⟩
      rcases (getMatchingEntry_eq val e.1 e.2 c).mp hfe with ⟨h1, h2⟩ | ⟨h1, h2⟩
      · left
        have : e = (val, c) := by
          cases e
          simp_all
        rwa [this] at he
      · right
        have : e = (c, val) := by
          cases e
          simp_all
        rwa [this] at he
    · rintro (h | h)
      · exact ⟨(val, c), h, (getMatchingEntry_eq val val c c).mpr (Or.inl ⟨rfl, rfl⟩)⟩
      · exact ⟨(c, val), h, (getMatchingEntry_eq val c val c).mpr (Or.inr ⟨rfl, rfl⟩)⟩
  unfold getMatchingEntries
  by_cases hfull : mn = 0 ∧ mx = 2 ^ w - 1
  · rw [if_pos hfull, insertMatches_mem, hpair]
    obtain ⟨h0, hmax⟩ := hfull
    constructor
    · intro h
      refine ⟨h, by omega, ?_⟩
      have hb : b < 2 ^ w := by
        rcases h with h | h
        · exact (hw _ h).2
        · exact (hw _ h).1
      omega
    · rintro ⟨h, -, -⟩
      exact h
  · rw [if_neg hfull, insertMatches_mem]
    constructor
    · rintro ⟨e, he, hfe⟩
      obtain ⟨hm, h1, h2⟩ := (getMatchingEntryInRange_eq val e.1 e.2 mn mx b).mp hfe
      exact ⟨(hpair b).mp ⟨e, he, hm⟩, h1, h2⟩
    · rintro ⟨h, h1, h2⟩
      obtain ⟨e, he, hm⟩ := (hpair b).mpr h
      exact ⟨e, he, (getMatchingEntryInRange_eq val e.1 e.2 mn mx b).mpr ⟨hm, h1, h2⟩⟩

/-- Claim C8: for every table state, value and bounds `min ≤ max`,
`GetMatchingIntegerDictionaryEntries(val, min, max)` returns (as a
duplicate-free set) exactly the values `b` such that some slot holds
`(val, b)` or `(b, val)` and `min ≤ b ≤ max`, and the result is
independent of the order of the slots. -/
theorem getMatchingEntries_spec (w : Nat) (tbl : List (Nat × Nat))
    (val mn mx : Nat) (hw : ∀ e ∈ tbl, e.1 < 2 ^ w ∧ e.2 < 2 ^ w)
    (hmn : mn ≤ mx) :
    (∀ b, b ∈ getMatchingEntries w tbl val mn mx ↔
      (((val, b) ∈ tbl ∨ (b, val) ∈ tbl) ∧ mn ≤ b ∧ b ≤ mx)) ∧
    (∀ tbl2, tbl.Perm tbl2 →
      getMatchingEntries w tbl val mn mx = getMatchingEntries w tbl2 val mn mx) := by
  refine ⟨getMatchingEntries_mem w tbl val mn mx hw, ?_⟩
  intro tbl2 hperm
  have hw2 : ∀ e ∈ tbl2, e.1 < 2 ^ w ∧ e.2 < 2 ^ w := fun e he =>
    hw e (hperm.mem_iff.mpr he)
  ext b
  rw [getMatchingEntries_mem w tbl val mn mx hw b,
    getMatchingEntries_mem w tbl2 val mn mx hw2 b,
    hperm.mem_iff, hperm.mem_iff]

/-- Witness for claim C8: width 4 bytes, table holding the single slot
`(42, 99)`, query `val = 42` with bounds `[0, 100]` (spec scenario 6). -/
theorem getMatchingEntries_spec_witness :
    (∀ b, b ∈ getMatchingEntries 32 [(42, 99)] 42 0 100 ↔
      (((42, b) ∈ [((42 : Nat), (99 : Nat))] ∨ (b, 42) ∈ [((42 : Nat), (99 : Nat))]) ∧
        0 ≤ b ∧ b ≤ 100)) ∧
    (∀ tbl2, List.Perm [((42 : Nat), (99 : Nat))] tbl2 →
      getMatchingEntries 32 [(42, 99)] 42 0 100 = getMatchingEntries 32 tbl2 42 0 100) :=
  getMatchingEntries_spec 32 [(42, 99)] 42 0 100
    (by intro e he; simp at he; subst he; constructor <;> norm_num)
    (by norm_num)

/-! ## The drain loop: word-level to byte-level correspondence -/

/-- Extracting byte `pos` from a packed word recovers the stored byte. -/
theorem packBytes_extract (s : Nat → Nat) :
    ∀ k base pos, pos < k →
      packBytes s base k / 2 ^ (8 * pos) % 256 = s (base + pos) % 256 := by
  intro k
  induction k with
  | zero => intro base pos h; omega
  | succ k ih =>
    intro base pos hpos
    simp only [packBytes]
    cases pos with
    | zero =>
      simp only [Nat.mul_zero, pow_zero, Nat.div_one, Nat.add_zero]
      omega
    | succ pos =>
      have h8 : (8 : Nat) * (pos + 1) = 8 + 8 * pos := by ring
      rw [h8, pow_add, show (2 : Nat) ^ 8 = 256 from by norm_num]
      rw [← Nat.div_div_eq_div_mul]
      have ha : s base % 256 < 256 := Nat.mod_lt _ (by norm_num)
      rw [Nat.add_mul_div_left _ _ (show (0 : Nat) < 256 from by norm_num),
        Nat.div_eq_of_lt ha, Nat.zero_add]
      rw [ih (base + 1) pos (by omega),
        show base + 1 + pos = base + (pos + 1) from by omega]

/-- A packed word is zero exactly when every packed byte is. -/
theorem packBytes_eq_zero (s : Nat → Nat) :
    ∀ k base, packBytes s base k = 0 ↔
      ∀ pos, pos < k → s (base + pos) % 256 = 0 := by
  intro k
  induction k with
  | zero => intro base; simp [packBytes]
  | succ k ih =>
    intro base
    simp only [packBytes]
    constructor
    · intro h pos hpos
      have h1 : s base % 256 = 0 := by omega
      have h2 : packBytes s (base + 1) k = 0 := by omega
      cases pos with
      | zero => simpa using h1
      | succ pos =>
        have hh := (ih (base + 1)).mp h2 pos (by omega)
        rwa [show base + 1 + pos = base + (pos + 1) from by omega] at hh
    · intro h
      have h1 : s base % 256 = 0 := by simpa using h 0 (by omega)
      have h2 : packBytes s (base + 1) k = 0 := by
        apply (ih (base + 1)).mpr
        intro pos hpos
        have hh := h (pos + 1) (by omega)
        rwa [show base + (pos + 1) = base + 1 + pos from by omega] at hh
      omega

/-- The loaded word is zero exactly when the 8 bytes under it are zero. -/
theorem chunkWord_eq_zero (s : Nat → Nat) (base : Nat) (hs : ∀ p, s p < 256) :
    chunkWord s base = 0 ↔ ∀ pos, pos < 8 → s (base + pos) = 0 := by
  unfold chunkWord
  rw [packBytes_eq_zero]
  constructor
  · intro h pos hpos
    have hh := h pos hpos
    rwa [Nat.mod_eq_of_lt (hs _)] at hh
  · intro h pos hpos
    rw [h pos hpos]

/-- The byte loop over a loaded word emits exactly the non-zero bytes of
the underlying state. -/
theorem drainChunk_spec (s : Nat → Nat) (base : Nat) (hs : ∀ p, s p < 256) :
    drainChunk (chunkWord s base) base =
      (List.range 8).filterMap fun pos =>
        if s (base + pos) ≠ 0 then some (base + pos, s (base + pos))
        else none := by
  unfold drainChunk
  apply List.filterMap_congr
  intro pos hpos
  have hlt : pos < 8 := by simpa using hpos
  have hx : chunkWord s base / 2 ^ (8 * pos) % 256 = s (base + pos) := by
    unfold chunkWord
    rw [packBytes_extract s 8 base pos hlt, Nat.mod_eq_of_lt (hs _)]
  rw [hx]

/-- Unfolding equation for one iteration of the word loop. -/
theorem forEachLoop_succ (s : Nat → Nat) (base n : Nat) :
    forEachLoop s base (n + 1) =
      if chunkWord s base = 0 then forEachLoop s (base + 8) n
      else
        (drainChunk (chunkWord s base) base ++
          (forEachLoop (fun j => if base ≤ j ∧ j < base + 8 then 0 else s j)
            (base + 8) n).1,
          (forEachLoop (fun j => if base ≤ j ∧ j < base + 8 then 0 else s j)
            (base + 8) n).2) := rfl

/-- Specification of the word loop on states holding bytes: the emitted
pairs are exactly the non-zero bytes of the visited range in index order,
and the final state is zero on the visited range and untouched outside. -/
theorem forEachLoop_spec (n : Nat) :
    ∀ (s : Nat → Nat) (base : Nat), (∀ p, s p < 256) →
      (forEachLoop s base n).1 =
        (List.range (8 * n)).filterMap (fun k =>
          if s (base + k) ≠ 0 then some (base + k, s (base + k)) else none) ∧
      ∀ j, (forEachLoop s base n).2 j =
        if base ≤ j ∧ j < base + 8 * n then 0 else s j := by
  induction n with
  | zero =>
    intro s base _
    refine ⟨by simp [forEachLoop], ?_⟩
    intro j
    show s j = if base ≤ j ∧ j < base + 8 * 0 then 0 else s j
    rw [if_neg (by omega)]
  | succ n ih =>
    intro s base hs
    by_cases hw : chunkWord s base = 0
    · rw [forEachLoop_succ, if_pos hw]
      obtain ⟨ih1, ih2⟩ := ih s (base + 8) hs
      have hz : ∀ pos, pos < 8 → s (base + pos) = 0 :=
        (chunkWord_eq_zero s base hs).mp hw
      constructor
      · rw [ih1, show 8 * (n + 1) = 8 + 8 * n from by ring, List.range_add,
          List.filterMap_append, List.filterMap_map]
        have hnil : (List.range 8).filterMap
            (fun k => if s (base + k) ≠ 0 then some (base + k, s (base + k))
              else none) = [] := by
          apply List.filterMap_eq_nil_iff.mpr
          intro a ha
          have halt : a < 8 := by simpa using ha
          simp [hz a halt]
        rw [hnil, List.nil_append]
        apply List.filterMap_congr
        intro a _
        simp only [Function.comp_apply, ← Nat.add_assoc]
      · intro j
        rw [ih2 j]
        by_cases hj : base + 8 ≤ j ∧ j < base + 8 + 8 * n
        · rw [if_pos hj, if_pos (by omega)]
        · rw [if_neg hj]
          by_cases hj2 : base ≤ j ∧ j < base + 8 * (n + 1)
          · rw [if_pos hj2]
            have hin : j < base + 8 := by omega
            have hzj := hz (j - base) (by omega)
            rwa [show base + (j - base) = j from by omega] at hzj
          · rw [if_neg hj2]
    · rw [forEachLoop_succ, if_neg hw]
      have hs2lt : ∀ p,
          (if base ≤ p ∧ p < base + 8 then 0 else s p) < 256 := by
        intro p
        by_cases h : base ≤ p ∧ p < base + 8
        · rw [if_pos h]; norm_num
        · rw [if_neg h]; exact hs p
      obtain ⟨ih1, ih2⟩ :=
        ih (fun j => if base ≤ j ∧ j < base + 8 then 0 else s j) (base + 8)
          hs2lt
      constructor
      · show drainChunk (chunkWord s base) base ++ _ = _
        rw [ih1, drainChunk_spec s base hs,
          show 8 * (n + 1) = 8 + 8 * n from by ring, List.range_add,
          List.filterMap_append, List.filterMap_map]
        congr 1
        apply List.filterMap_congr
        intro a _
        have hgt : (if base ≤ base + 8 + a ∧ base + 8 + a < base + 8 then 0
            else s (base + 8 + a)) = s (base + 8 + a) := by
          rw [if_neg (by omega)]
        simp only [Function.comp_apply, hgt, ← Nat.add_assoc]
      · intro j
        show (forEachLoop _ (base + 8) n).2 j = _
        rw [ih2 j]
        by_cases hj : base + 8 ≤ j ∧ j < base + 8 + 8 * n
        · rw [if_pos hj, if_pos (by omega)]
        · rw [if_neg hj]
          by_cases hj2 : base ≤ j ∧ j < base + 8
          · rw [if_pos hj2, if_pos (by omega)]
          · rw [if_neg hj2, if_neg (by omega)]

/-- The word loop over an all-zero range emits nothing and leaves the
state untouched. -/
theorem forEachLoop_of_zero (n : Nat) :
    ∀ (s : Nat → Nat) (base : Nat), (∀ p, s p < 256) →
      (∀ j, base ≤ j → j < base + 8 * n → s j = 0) →
      forEachLoop s base n = ([], s) := by
  induction n with
  | zero => intro s base _ _; rfl
  | succ n ih =>
    intro s base hs hz
    have hw : chunkWord s base = 0 := by
      rw [chunkWord_eq_zero s base hs]
      intro pos hpos
      exact hz (base + pos) (by omega) (by omega)
    rw [forEachLoop_succ, if_pos hw]
    exact ih s (base + 8) hs fun j h1 h2 => hz j (by omega) (by omega)

/-! ## Claim C1: set-then-drain on a single-layer set -/

/-- A sequence of in-range `Set` calls never traps and its effect on each
index is the fold of the writes over the initial value. -/
theorem applyOps_writes_spec (N : Nat) (ops : List (Nat × Nat)) :
    ∀ s : Nat → Nat, (∀ p ∈ ops, p.1 < N ∧ p.2 < 256) →
      ∃ t, applyOps N s (ops.map fun p => ByteOp.write p.1 p.2) = some t ∧
        ∀ i, t i = ops.foldl (fun acc p => if p.1 = i then p.2 else acc) (s i) := by
  induction ops with
  | nil => intro s _; exact ⟨s, rfl, fun i => rfl⟩
  | cons p rest ih =>
    intro s hv
    have hp := hv p (by simp)
    obtain ⟨t, ht, hti⟩ :=
      ih (fun j => if j = p.1 then p.2 else s j) fun q hq => hv q (by simp [hq])
    refine ⟨t, ?_, ?_⟩
    · show (applyOp N s (ByteOp.write p.1 p.2)).bind _ = some t
      have happ : applyOp N s (ByteOp.write p.1 p.2) =
          some fun j => if j = p.1 then p.2 else s j := by
        show setByte N s p.1 p.2 = _
        unfold setByte
        rw [if_pos hp.1]
      rw [happ, Option.some_bind]
      exact ht
    · intro i
      rw [hti i, List.foldl_cons]
      congr 1
      by_cases h : p.1 = i
      · rw [if_pos h, if_pos h.symm]
      · rw [if_neg h, if_neg fun hh => h hh.symm]

/-- The last-written value is a byte when all written values are. -/
theorem lastWrite_lt (ops : List (Nat × Nat)) (hv : ∀ p ∈ ops, p.2 < 256)
    (i : Nat) : lastWrite ops i < 256 := by
  unfold lastWrite
  suffices h : ∀ a : Nat, a < 256 →
      ops.foldl (fun acc p => if p.1 = i then p.2 else acc) a < 256 from
    h 0 (by norm_num)
  induction ops with
  | nil => intro a ha; exact ha
  | cons p rest ih =>
    intro a ha
    rw [List.foldl_cons]
    refine ih (fun q hq => hv q (by simp [hq])) _ ?_
    by_cases h : p.1 = i
    · rw [if_pos h]; exact hv p (by simp)
    · rwa [if_neg h]

/-- Indices beyond the written range keep the value 0. -/
theorem lastWrite_out_of_range (ops : List (Nat × Nat)) (N : Nat)
    (hv : ∀ p ∈ ops, p.1 < N) (i : Nat) (hi : N ≤ i) : lastWrite ops i = 0 := by
  unfold lastWrite
  suffices h : ∀ a : Nat,
      ops.foldl (fun acc p => if p.1 = i then p.2 else acc) a = a by
    exact h 0
  induction ops with
  | nil => intro a; rfl
  | cons p rest ih =>
    intro a
    rw [List.foldl_cons,
      if_neg (show p.1 ≠ i by have := hv p (by simp); omega)]
    exact ih (fun q hq => hv q (by simp [hq])) a

/-- An element of a duplicate-free list is counted exactly once. -/
theorem count_eq_one_of_nodup_mem {α : Type} [BEq α] [LawfulBEq α]
    (l : List α) (q : α) (hnd : l.Nodup) (hm : q ∈ l) : l.count q = 1 := by
  induction l with
  | nil => cases hm
  | cons a t ih =>
    rw [List.count_cons]
    rcases List.mem_cons.mp hm with rfl | hmt
    · have hnotin : q ∉ t := (List.nodup_cons.mp hnd).1
      have hz : t.count q = 0 := List.count_eq_zero.mpr hnotin
      simp [hz]
    · have hne : a ≠ q := by
        rintro rfl
        exact (List.nodup_cons.mp hnd).1 hmt
      rw [ih (List.nodup_cons.mp hnd).2 hmt]
      have hqa : (q == a) = false := by
        simp only [beq_eq_false_iff_ne]
        exact fun h => hne h.symm
      simp [hqa, hne]

/-- Claim C1: for `N` a multiple of 64, after any sequence of
single-threaded `Set(i, v)` calls on a cleared `ConcurrentByteSet<N>`,
`ForEachNonZeroByte(action, 0, N)` invokes the action exactly once with
`(i, v)` for each index whose last-written value `v` is non-zero and
never with any other index, and an immediately following second
`ForEachNonZeroByte` invokes the action zero times. -/
theorem setDrain_spec (N : Nat) (ops : List (Nat × Nat)) (h64 : 64 ∣ N)
    (hops : ∀ p ∈ ops, p.1 < N ∧ p.2 < 256) :
    ∃ sfin em sz,
      applyOps N clearBytes (ops.map fun p => ByteOp.write p.1 p.2) = some sfin ∧
      forEachNonZeroByte N sfin 0 N = some (em, sz) ∧
      (∀ i, i < N → lastWrite ops i ≠ 0 → em.count (i, lastWrite ops i) = 1) ∧
      (∀ q ∈ em, q.1 < N ∧ q.2 = lastWrite ops q.1 ∧ q.2 ≠ 0) ∧
      forEachNonZeroByte N sz 0 N = some ([], sz) := by
  obtain ⟨c, hc⟩ := h64
  have hmodN : N % 64 = 0 := by rw [hc]; exact Nat.mul_mod_right 64 c
  have h8 : 8 * (N / 8) = N := by omega
  obtain ⟨sfin, hsfin, hfold⟩ := applyOps_writes_spec N ops clearBytes hops
  have hlast : ∀ i, sfin i = lastWrite ops i := fun i => hfold i
  have hlt : ∀ i, sfin i < 256 := by
    intro i
    rw [hlast i]
    exact lastWrite_lt ops (fun p hp => (hops p hp).2) i
  obtain ⟨hem, hsz⟩ := forEachLoop_spec (N / 8) sfin 0 hlt
  have hdrain : forEachNonZeroByte N sfin 0 N =
      some ((forEachLoop sfin 0 (N / 8)).1, (forEachLoop sfin 0 (N / 8)).2) := by
    unfold forEachNonZeroByte
    rw [if_neg (by omega), if_neg (by omega), if_neg (by omega),
      Nat.sub_zero]
  refine ⟨sfin, (forEachLoop sfin 0 (N / 8)).1, (forEachLoop sfin 0 (N / 8)).2,
    hsfin, hdrain, ?_, ?_, ?_⟩
  all_goals rw [h8] at hem hsz
  · intro i hi hnz
    have hmem : (i, lastWrite ops i) ∈ (forEachLoop sfin 0 (N / 8)).1 := by
      rw [hem]
      apply List.mem_filterMap.mpr
      refine ⟨i, List.mem_range.mpr hi, ?_⟩
      rw [Nat.zero_add, hlast i, if_pos hnz]
    have hnd : ((forEachLoop sfin 0 (N / 8)).1).Nodup := by
      rw [hem]
      apply List.Nodup.filterMap ?_ (List.nodup_range N)
      intro a a2 b hb hb2
      have h1 : b.1 = a := by
        by_cases h : sfin (0 + a) ≠ 0
        · rw [if_pos h] at hb
          cases hb
          omega
        · rw [if_neg h] at hb
          cases hb
      have h2 : b.1 = a2 := by
        by_cases h : sfin (0 + a2) ≠ 0
        · rw [if_pos h] at hb2
          cases hb2
          omega
        · rw [if_neg h] at hb2
          cases hb2
      omega
    exact count_eq_one_of_nodup_mem _ _ hnd hmem
  · intro q hq
    rw [hem] at hq
    obtain ⟨a, ha, hfa⟩ := List.mem_filterMap.mp hq
    have haN : a < N := List.mem_range.mp ha
    by_cases h : sfin (0 + a) ≠ 0
    · rw [if_pos h] at hfa
      injection hfa with hfa
      subst hfa
      simp only [Nat.zero_add] at h ⊢
      exact ⟨haN, hlast a, h⟩
    · rw [if_neg h] at hfa
      cases hfa
  · have hz : ∀ j, 0 ≤ j → j < 0 + 8 * (N / 8) →
        (forEachLoop sfin 0 (N / 8)).2 j = 0 := by
      intro j _ hj
      rw [hsz j, if_pos (by omega)]
    have hlt2 : ∀ p, (forEachLoop sfin 0 (N / 8)).2 p < 256 := by
      intro p
      rw [hsz p]
      by_cases h : 0 ≤ p ∧ p < 0 + N
      · rw [if_pos h]; norm_num
      · rw [if_neg h]; exact hlt p
    unfold forEachNonZeroByte
    rw [if_neg (by omega), if_neg (by omega), if_neg (by omega), Nat.sub_zero,
      forEachLoop_of_zero (N / 8) _ 0 hlt2 (by rw [h8] at hz ⊢; exact hz)]

/-- Witness for claim C1: `N = 128`, writes from spec scenario 1. -/
theorem setDrain_spec_witness :
    ∃ sfin em sz,
      applyOps 128 clearBytes
        ([(0, 7), (1, 0), (63, 5), (64, 9), (127, 1)].map
          fun p => ByteOp.write p.1 p.2) = some sfin ∧
      forEachNonZeroByte 128 sfin 0 128 = some (em, sz) ∧
      (∀ i, i < 128 →
        lastWrite [(0, 7), (1, 0), (63, 5), (64, 9), (127, 1)] i ≠ 0 →
        em.count (i, lastWrite [(0, 7), (1, 0), (63, 5), (64, 9), (127, 1)] i) = 1) ∧
      (∀ q ∈ em, q.1 < 128 ∧
        q.2 = lastWrite [(0, 7), (1, 0), (63, 5), (64, 9), (127, 1)] q.1 ∧
        q.2 ≠ 0) ∧
      forEachNonZeroByte 128 sz 0 128 = some ([], sz) :=
  setDrain_spec 128 [(0, 7), (1, 0), (63, 5), (64, 9), (127, 1)]
    (by norm_num) (by decide)

/-! ## Claim C2: two-layer versus single-layer drain -/

/-- A sequence of valid operations on a two-layer set succeeds, drives the
lower layer exactly as the single-layer set, keeps the upper layer a 0/1
presence map, keeps the lower layer a byte map, and maintains the
invariant that a non-zero lower byte has its upper presence flag set. -/
theorem tlApplyOps_spec (N : Nat) (h64 : 64 ∣ N) (ops : List ByteOp) :
    ∀ (u l : Nat → Nat),
      (∀ op ∈ ops, opValid N op = true) →
      (∀ j, u j ≤ 1) →
      (∀ i, l i < 256) →
      (∀ i, i < N → l i ≠ 0 → u (i / 64) ≠ 0) →
      ∃ ufin lfin,
        tlApplyOps N u l ops = some (ufin, lfin) ∧
        applyOps N l ops = some lfin ∧
        (∀ j, ufin j ≤ 1) ∧
        (∀ i, lfin i < 256) ∧
        (∀ i, i < N → lfin i ≠ 0 → ufin (i / 64) ≠ 0) := by
  induction ops with
  | nil =>
    intro u l _ hu hl hinv
    exact ⟨u, l, rfl, rfl, hu, hl, hinv⟩
  | cons op rest ih =>
    intro u l hv hu hl hinv
    have hvop := hv op (by simp)
    have hvrest : ∀ q ∈ rest, opValid N q = true := fun q hq => hv q (by simp [hq])
    cases op with
    | write i v =>
      have hi : i < N := by
        have := hvop
        unfold opValid at this
        simp at this
        exact this.1
      have hval : v < 256 := by
        have := hvop
        unfold opValid at this
        simp at this
        exact this.2
      have hidiv : i / 64 < N / 64 := Nat.div_lt_div_of_lt_of_dvd h64 hi
      have hstep : tlApplyOp N u l (ByteOp.write i v) =
          some (fun j => if j = i / 64 then 1 else u j,
            fun j => if j = i then v else l j) := by
        show tlSet N u l i v = _
        unfold tlSet setByte
        rw [if_pos hi, if_pos hidiv, Option.some_bind, if_pos hi,
          Option.some_bind]
      have hstepS : applyOp N l (ByteOp.write i v) =
          some fun j => if j = i then v else l j := by
        show setByte N l i v = _
        unfold setByte
        rw [if_pos hi]
      obtain ⟨ufin, lfin, h1, h2, h3, h4, h5⟩ :=
        ih (fun j => if j = i / 64 then 1 else u j)
          (fun j => if j = i then v else l j) hvrest
          (by
            intro j
            dsimp only
            by_cases h : j = i / 64
            · rw [if_pos h]
            · rw [if_neg h]; exact hu j)
          (by
            intro j
            dsimp only
            by_cases h : j = i
            · rw [if_pos h]; exact hval
            · rw [if_neg h]; exact hl j)
          (by
            intro i0 hi0 hnz
            dsimp only at hnz ⊢
            by_cases h : i0 = i
            · subst h
              rw [if_pos rfl]
              omega
            · rw [if_neg h] at hnz
              have hup := hinv i0 hi0 hnz
              by_cases h2 : i0 / 64 = i / 64
              · rw [if_pos h2]; omega
              · rw [if_neg h2]; exact hup)
      refine ⟨ufin, lfin, ?_, ?_, h3, h4, h5⟩
      · show (tlApplyOp N u l (ByteOp.write i v)).bind _ = some (ufin, lfin)
        rw [hstep, Option.some_bind]
        exact h1
      · show (applyOp N l (ByteOp.write i v)).bind _ = some lfin
        rw [hstepS, Option.some_bind]
        exact h2
    | inc i =>
      have hi : i < N := by
        have := hvop
        unfold opValid at this
        simpa using this
      have hidiv : i / 64 < N / 64 := Nat.div_lt_div_of_lt_of_dvd h64 hi
      have hstep : tlApplyOp N u l (ByteOp.inc i) =
          some (fun j => if j = i / 64 then 1 else u j,
            if l i = 255 then l else fun j => if j = i then l i + 1 else l j) := by
        show tlSatInc N u l i = _
        unfold tlSatInc setByte satInc
        rw [if_pos hi, if_pos hidiv, Option.some_bind, if_pos hi,
          Option.some_bind]
      have hstepS : applyOp N l (ByteOp.inc i) =
          some (if l i = 255 then l
            else fun j => if j = i then l i + 1 else l j) := by
        show satInc N l i = _
        unfold satInc
        rw [if_pos hi]
      have hl2 : ∀ j,
          (if l i = 255 then l else fun j => if j = i then l i + 1 else l j) j
            < 256 := by
        intro j
        by_cases h255 : l i = 255
        · rw [if_pos h255]; exact hl j
        · rw [if_neg h255]
          by_cases h : j = i
          · rw [if_pos h]
            have := hl i
            omega
          · rw [if_neg h]; exact hl j
      have hinv2 : ∀ i0, i0 < N →
          (if l i = 255 then l else fun j => if j = i then l i + 1 else l j) i0
            ≠ 0 →
          (fun j => if j = i / 64 then 1 else u j) (i0 / 64) ≠ 0 := by
        intro i0 hi0 hnz
        show (if i0 / 64 = i / 64 then 1 else u (i0 / 64)) ≠ 0
        by_cases h2 : i0 / 64 = i / 64
        · rw [if_pos h2]; omega
        · rw [if_neg h2]
          apply hinv i0 hi0
          by_cases h255 : l i = 255
          · rwa [if_pos h255] at hnz
          · rw [if_neg h255] at hnz
            have hne : i0 ≠ i := by
              intro hh
              rw [hh] at h2
              exact h2 rfl
            rwa [if_neg hne] at hnz
      obtain ⟨ufin, lfin, h1, h2, h3, h4, h5⟩ :=
        ih (fun j => if j = i / 64 then 1 else u j)
          (if l i = 255 then l else fun j => if j = i then l i + 1 else l j)
          hvrest
          (by
            intro j
            dsimp only
            by_cases h : j = i / 64
            · rw [if_pos h]
            · rw [if_neg h]; exact hu j)
          hl2 hinv2
      refine ⟨ufin, lfin, ?_, ?_, h3, h4, h5⟩
      · show (tlApplyOp N u l (ByteOp.inc i)).bind _ = some (ufin, lfin)
        rw [hstep, Option.some_bind]
        exact h1
      · show (applyOp N l (ByteOp.inc i)).bind _ = some lfin
        rw [hstepS, Option.some_bind]
        exact h2

/-- Unfolding equation for the lower-layer drain fold. -/
theorem tlDrainLower_cons (N : Nat) (l : Nat → Nat) (p : Nat × Nat)
    (rest : List (Nat × Nat)) :
    tlDrainLower N l (p :: rest) =
      (forEachNonZeroByte N l (p.1 * 64) (p.1 * 64 + 64)).bind fun r1 =>
        (tlDrainLower N r1.2 rest).bind fun r2 => some (r1.1 ++ r2.1, r2.2) :=
  rfl

/-- One step of the lower-layer drain fold, with both inner results given. -/
theorem tlDrainLower_cons_eq (N : Nat) (l l2 lf : Nat → Nat) (p : Nat × Nat)
    (rest em1 em2 : List (Nat × Nat))
    (h : forEachNonZeroByte N l (p.1 * 64) (p.1 * 64 + 64) = some (em1, l2))
    (h2 : tlDrainLower N l2 rest = some (em2, lf)) :
    tlDrainLower N l (p :: rest) = some (em1 ++ em2, lf) := by
  rw [tlDrainLower_cons, h, Option.some_bind]
  show (tlDrainLower N l2 rest).bind _ = _
  rw [h2, Option.some_bind]

/-- The lower-layer drain fold over chunks with distinct, in-range indices
succeeds, emits the concatenated chunk contents of the original state, and
touches only the drained chunks. -/
theorem tlDrainLower_spec (N : Nat) :
    ∀ (J : List (Nat × Nat)) (l : Nat → Nat),
      (∀ i, l i < 256) →
      (∀ p ∈ J, (p.1 + 1) * 64 ≤ N) →
      J.Pairwise (fun p q => p.1 ≠ q.1) →
      ∃ em lf, tlDrainLower N l J = some (em, lf) ∧
        em = J.flatMap (fun p => chunkPairs l p.1) ∧
        (∀ i, lf i < 256) ∧
        (∀ i, (∀ p ∈ J, i < p.1 * 64 ∨ p.1 * 64 + 64 ≤ i) → lf i = l i) := by
  intro J
  induction J with
  | nil =>
    intro l hl _ _
    exact ⟨[], l, rfl, by simp, hl, fun i _ => rfl⟩
  | cons p rest ih =>
    intro l hl hb hpw
    have hto : p.1 * 64 + 64 ≤ N := by
      have := hb p (by simp)
      omega
    have hinner : forEachNonZeroByte N l (p.1 * 64) (p.1 * 64 + 64) =
        some ((forEachLoop l (p.1 * 64) 8).1, (forEachLoop l (p.1 * 64) 8).2) := by
      unfold forEachNonZeroByte
      rw [if_neg (by omega), if_neg (by omega), if_neg (by omega),
        show (p.1 * 64 + 64 - p.1 * 64) / 8 = 8 from by omega]
    obtain ⟨hem1, hst1⟩ := forEachLoop_spec 8 l (p.1 * 64) hl
    have hchunk : (forEachLoop l (p.1 * 64) 8).1 = chunkPairs l p.1 := by
      rw [hem1]
      unfold chunkPairs
      rw [show (8 : Nat) * 8 = 64 from rfl]
    have hl2 : ∀ i, (forEachLoop l (p.1 * 64) 8).2 i < 256 := by
      intro i
      rw [hst1 i]
      by_cases h : p.1 * 64 ≤ i ∧ i < p.1 * 64 + 8 * 8
      · rw [if_pos h]; norm_num
      · rw [if_neg h]; exact hl i
    have hbrest : ∀ q ∈ rest, (q.1 + 1) * 64 ≤ N := fun q hq => hb q (by simp [hq])
    have hpwrest : rest.Pairwise (fun p q => p.1 ≠ q.1) :=
      (List.pairwise_cons.mp hpw).2
    have hphead : ∀ q ∈ rest, p.1 ≠ q.1 := (List.pairwise_cons.mp hpw).1
    obtain ⟨em2, lf, hdrain2, hem2, hlf, hpres⟩ :=
      ih (forEachLoop l (p.1 * 64) 8).2 hl2 hbrest hpwrest
    refine ⟨chunkPairs l p.1 ++ em2, lf, ?_, ?_, hlf, ?_⟩
    · rw [tlDrainLower_cons_eq N l (forEachLoop l (p.1 * 64) 8).2 lf p rest
        (forEachLoop l (p.1 * 64) 8).1 em2 hinner hdrain2, hchunk]
    · have hcong : (rest.flatMap fun q =>
          chunkPairs (forEachLoop l (p.1 * 64) 8).2 q.1) =
          rest.flatMap fun q => chunkPairs l q.1 := by
        apply List.flatMap_congr
        intro q hq
        unfold chunkPairs
        apply List.filterMap_congr
        intro k hk
        have hk64 : k < 64 := List.mem_range.mp hk
        have hqp : p.1 ≠ q.1 := hphead q hq
        have hout : (forEachLoop l (p.1 * 64) 8).2 (q.1 * 64 + k) =
            l (q.1 * 64 + k) := by
          rw [hst1, if_neg (by omega)]
        rw [hout]
      rw [List.flatMap_cons, hem2, hcong]
    · intro i hi
      have h1 : ∀ q ∈ rest, i < q.1 * 64 ∨ q.1 * 64 + 64 ≤ i := fun q hq =>
        hi q (List.mem_cons_of_mem p hq)
      have h2 := hi p (List.mem_cons_self p rest)
      rw [hpres i h1, hst1, if_neg (by omega)]

/-- Regrouping a `filterMap` over `[0, 64 m)` into 64-byte chunks. -/
theorem range_mul_filterMap (g : Nat → Option (Nat × Nat)) :
    ∀ m, (List.range (64 * m)).filterMap g =
      (List.range m).flatMap fun j =>
        (List.range 64).filterMap fun k => g (j * 64 + k) := by
  intro m
  induction m with
  | zero => simp
  | succ m ih =>
    rw [show 64 * (m + 1) = 64 * m + 64 from by ring, List.range_add,
      List.filterMap_append, ih,
      show List.range (m + 1) = List.range m ++ [m] from by
        rw [List.range_succ],
      List.flatMap_append]
    congr 1
    rw [List.flatMap_cons, List.flatMap_nil, List.append_nil,
      List.filterMap_map]
    apply List.filterMap_congr
    intro k _
    simp only [Function.comp_apply]
    rw [show 64 * m + k = m * 64 + k from by ring]

/-- The non-zero entries of a byte map, read off a strictly increasing
index list, have pairwise distinct indices. -/
theorem pairwise_fst_filterMap (u : Nat → Nat) (L : List Nat)
    (h : L.Pairwise (· < ·)) :
    (L.filterMap fun j => if u j ≠ 0 then some (j, u j) else none).Pairwise
      fun p q => p.1 ≠ q.1 := by
  apply List.Pairwise.filterMap _ ?_ h
  intro a a2 hlt b hb b2 hb2
  have h1 : b.1 = a := by
    by_cases hz : u a ≠ 0
    · rw [if_pos hz] at hb
      cases hb
      rfl
    · rw [if_neg hz] at hb
      cases hb
  have h2 : b2.1 = a2 := by
    by_cases hz : u a2 ≠ 0
    · rw [if_pos hz] at hb2
      cases hb2
      rfl
    · rw [if_neg hz] at hb2
      cases hb2
  omega

/-- Draining the lower chunks named by a filtered index list equals an
`if`-guarded chunk scan over the whole index list. -/
theorem filterMap_flatMap_pairs (u lf : Nat → Nat) :
    ∀ L : List Nat,
      ((L.filterMap fun j => if u j ≠ 0 then some (j, u j) else none).flatMap
        fun p => chunkPairs lf p.1) =
      L.flatMap fun j => if u j ≠ 0 then chunkPairs lf j else [] := by
  intro L
  induction L with
  | nil => rfl
  | cons j t ih =>
    rw [List.filterMap_cons, List.flatMap_cons]
    by_cases h : u j ≠ 0
    · rw [if_pos h, if_pos h, List.flatMap_cons, ih]
    · rw [if_neg h, if_neg h, List.nil_append, ih]

/-- The two-layer drain over the full range, with the two inner drain
results given. -/
theorem tlForEach_eq (N : Nat) (u l u2 lf2 : Nat → Nat)
    (upairs em2 : List (Nat × Nat)) (hN0 : N % tlSizeMultiple = 0)
    (hU : forEachNonZeroByte (N / 64) u 0 (N / 64) = some (upairs, u2))
    (hL : tlDrainLower N l upairs = some (em2, lf2)) :
    tlForEachNonZeroByte N u l 0 N = some (em2, u2, lf2) := by
  unfold tlForEachNonZeroByte
  rw [if_neg (by omega), if_neg (by simp), if_neg (by simp [hN0]),
    Nat.zero_div, hU, Option.some_bind]
  show (tlDrainLower N l upairs).bind _ = _
  rw [hL, Option.some_bind]

/-- Claim C2: for every sequence of single-threaded `Set` and
`SaturatedIncrement` calls with in-range indices applied identically to a
`TwoLayerConcurrentByteSet<N>` and a `ConcurrentByteSet<N>` (both starting
cleared), `ForEachNonZeroByte` over `[0, N)` emits the same multiset of
`(index, value)` pairs for both sets. -/
theorem twoLayer_drain_equiv (N : Nat) (ops : List ByteOp) (hN : 4096 ∣ N)
    (hops : ∀ op ∈ ops, opValid N op = true) :
    ∃ ufin lfin em1 r1 em2 r2,
      applyOps N clearBytes ops = some lfin ∧
      tlApplyOps N clearBytes clearBytes ops = some (ufin, lfin) ∧
      forEachNonZeroByte N lfin 0 N = some (em1, r1) ∧
      tlForEachNonZeroByte N ufin lfin 0 N = some (em2, r2) ∧
      (em2 : Multiset (Nat × Nat)) = (em1 : Multiset (Nat × Nat)) := by
  obtain ⟨c, hc⟩ := hN
  have h64 : (64 : Nat) ∣ N := ⟨64 * c, by omega⟩
  obtain ⟨ufin, lfin, htl, hsingle, hu1, hl256, hinv⟩ :=
    tlApplyOps_spec N h64 ops clearBytes clearBytes hops
      (fun j => by norm_num [clearBytes]) (fun i => by norm_num [clearBytes])
      (fun i _ h => (h rfl).elim)
  have hu256 : ∀ j, ufin j < 256 := fun j => by have := hu1 j; omega
  obtain ⟨hem1, hst1⟩ := forEachLoop_spec (N / 8) lfin 0 hl256
  have h8N : 8 * (N / 8) = N := by omega
  rw [h8N] at hem1
  have hdrain1 : forEachNonZeroByte N lfin 0 N =
      some ((forEachLoop lfin 0 (N / 8)).1, (forEachLoop lfin 0 (N / 8)).2) := by
    unfold forEachNonZeroByte
    rw [if_neg (by omega), if_neg (by omega), if_neg (by omega), Nat.sub_zero]
  obtain ⟨hemU, hstU⟩ := forEachLoop_spec (N / 64 / 8) ufin 0 hu256
  have h8U : 8 * (N / 64 / 8) = N / 64 := by omega
  rw [h8U] at hemU
  have hdrainU : forEachNonZeroByte (N / 64) ufin 0 (N / 64) =
      some ((forEachLoop ufin 0 (N / 64 / 8)).1,
        (forEachLoop ufin 0 (N / 64 / 8)).2) := by
    unfold forEachNonZeroByte
    rw [if_neg (by omega), if_neg (by omega), if_neg (by omega), Nat.sub_zero]
  have hupairs : (forEachLoop ufin 0 (N / 64 / 8)).1 =
      (List.range (N / 64)).filterMap
        (fun j => if ufin j ≠ 0 then some (j, ufin j) else none) := by
    rw [hemU]
    apply List.filterMap_congr
    intro a _
    rw [Nat.zero_add a]
  have hpw : ((forEachLoop ufin 0 (N / 64 / 8)).1).Pairwise
      (fun p q => p.1 ≠ q.1) := by
    rw [hupairs]
    exact pairwise_fst_filterMap ufin _ (List.pairwise_lt_range _)
  have hbound : ∀ p ∈ (forEachLoop ufin 0 (N / 64 / 8)).1,
      (p.1 + 1) * 64 ≤ N := by
    rw [hupairs]
    intro p hp
    obtain ⟨a, ha, hfa⟩ := List.mem_filterMap.mp hp
    have haN : a < N / 64 := List.mem_range.mp ha
    have hp1 : p.1 = a := by
      by_cases h : ufin a ≠ 0
      · rw [if_pos h] at hfa
        cases hfa
        rfl
      · rw [if_neg h] at hfa
        cases hfa
    omega
  obtain ⟨em2, lf2, hdrain2, hem2, hlf2, hpres2⟩ :=
    tlDrainLower_spec N (forEachLoop ufin 0 (N / 64 / 8)).1 lfin hl256 hbound hpw
  have htl_drain : tlForEachNonZeroByte N ufin lfin 0 N =
      some (em2, (forEachLoop ufin 0 (N / 64 / 8)).2, lf2) :=
    tlForEach_eq N ufin lfin (forEachLoop ufin 0 (N / 64 / 8)).2 lf2
      (forEachLoop ufin 0 (N / 64 / 8)).1 em2
      (by unfold tlSizeMultiple; omega) hdrainU hdrain2
  have h64N : 64 * (N / 64) = N := by omega
  have hreg := range_mul_filterMap
    (fun k => if lfin k ≠ 0 then some (k, lfin k) else none) (N / 64)
  rw [h64N] at hreg
  have hem1' : (forEachLoop lfin 0 (N / 8)).1 =
      (List.range (N / 64)).flatMap fun j => chunkPairs lfin j := by
    rw [hem1,
      show ((List.range N).filterMap fun k =>
          if lfin (0 + k) ≠ 0 then some (0 + k, lfin (0 + k)) else none) =
        (List.range N).filterMap
          (fun k => if lfin k ≠ 0 then some (k, lfin k) else none) from
        List.filterMap_congr fun a _ => by rw [Nat.zero_add a],
      hreg]
    apply List.flatMap_congr
    intro j _
    unfold chunkPairs
    rfl
  have hone : em2 = (List.range (N / 64)).flatMap
      fun j => if ufin j ≠ 0 then chunkPairs lfin j else [] := by
    rw [hem2, hupairs, filterMap_flatMap_pairs]
  have hempty : ∀ j, j < N / 64 → ufin j = 0 → chunkPairs lfin j = [] := by
    intro j hj hz
    unfold chunkPairs
    apply List.filterMap_eq_nil_iff.mpr
    intro k hk
    have hk64 : k < 64 := List.mem_range.mp hk
    have hiN : j * 64 + k < N := by omega
    have hdiv : (j * 64 + k) / 64 = j := by omega
    by_cases h : lfin (j * 64 + k) ≠ 0
    · exfalso
      have hnz := hinv (j * 64 + k) hiN h
      rw [hdiv] at hnz
      exact hnz hz
    · rw [if_neg h]
  have hfinal : em2 = (forEachLoop lfin 0 (N / 8)).1 := by
    rw [hone, hem1']
    apply List.flatMap_congr
    intro j hj
    have hjN : j < N / 64 := List.mem_range.mp hj
    by_cases h : ufin j ≠ 0
    · rw [if_pos h]
    · rw [if_neg h]
      exact (hempty j hjN (not_not.mp h)).symm
  refine ⟨ufin, lfin, (forEachLoop lfin 0 (N / 8)).1,
    (forEachLoop lfin 0 (N / 8)).2, em2,
    ((forEachLoop ufin 0 (N / 64 / 8)).2, lf2),
    hsingle, htl, hdrain1, htl_drain, ?_⟩
  rw [hfinal]

/-- Witness for claim C2: `N = 4096`, setting index 2050 to 42 and
incrementing index 100 (spec scenario 3 extended). -/
theorem twoLayer_drain_equiv_witness :
    ∃ ufin lfin em1 r1 em2 r2,
      applyOps 4096 clearBytes [ByteOp.write 2050 42, ByteOp.inc 100] = some lfin ∧
      tlApplyOps 4096 clearBytes clearBytes
        [ByteOp.write 2050 42, ByteOp.inc 100] = some (ufin, lfin) ∧
      forEachNonZeroByte 4096 lfin 0 4096 = some (em1, r1) ∧
      tlForEachNonZeroByte 4096 ufin lfin 0 4096 = some (em2, r2) ∧
      (em2 : Multiset (Nat × Nat)) = (em1 : Multiset (Nat × Nat)) :=
  twoLayer_drain_equiv 4096 [ByteOp.write 2050 42, ByteOp.inc 100]
    (by norm_num) (by decide)

end FuzztestInternal
